import Mathlib

/-!
Verification of the `stellaris-parser` core (repository `stellaris-companion`):
a shallow embedding of the session server (`src/commands/serve.rs`), the
one-shot extraction commands (`src/commands/extract.rs`, `src/commands/iter.rs`)
and the error mapping (`src/error.rs`), together with proofs about the
embedded operations.

Conventions of the embedding:
* Rust `String`/`&str` values (the Windows-1252-decoded text of the payloads,
  section names, keys, field names, protocol strings) are modelled as `List Char`.
* `serde_json::Value` is modelled by the inductive `Value` below; `serde_json`
  objects (and Rust `HashMap`s used as objects) are association lists with
  unique keys, with `lookupA` as lookup and `mapInsert` as insert-or-replace.
* `HashMap<String, usize>` / `HashMap<String, bool>` results are modelled
  extensionally as functions `Str → Nat` / `Str → Bool`.
* `str::find` is modelled by `findSub` (index of the first occurrence of a
  pattern); the Aho-Corasick scan of the `aho_corasick` crate is modelled by
  its documented semantics: a pattern is reported iff it occurs as a substring.
* Machine integers: the counters and offsets involved are far below `usize`
  bounds on any input the program accepts, and the Rust code uses them only as
  sizes/indices, so they are modelled as `Nat` (brace depth, an `i32` that can
  also go negative, is an `Int`).
* Units: Rust `str::find` offsets, `content[start..]` suffixes and `.len()`
  are byte-based but unit-consistent with each other, so they are modelled at
  the character level (the same suffixes result).  The one place the source
  mixes units — `entry_end`, a character count from `chars().enumerate()`,
  consumed as a byte offset by `&entry_content[..entry_end]` — is modelled
  exactly: `braceEnd` returns the character count (its no-brace default is the
  byte length `.len()`), and `byteTake` performs the byte slice, with `none`
  for the panic on a slice that is out of bounds or not on a character
  boundary.  On content containing multi-byte characters (`from_utf8_lossy`
  turns every non-ASCII Windows-1252 byte into the three-byte U+FFFD) the
  slice truncates the entry block or panics; a raw-text handler therefore
  returns `Option` — `none` models the panic, which aborts the process before
  anything is written.
-/

/-- Rust strings (Windows-1252 decoded text) as lists of characters. -/
abbrev Str := List Char

/-- Convenience conversion from a Lean string literal. -/
def strL (s : String) : Str := s.toList

/-- The `{` character (written via its code to keep it out of string position). -/
def lbraceC : Char := '\x7b'

/-- The `}` character. -/
def rbraceC : Char := '\x7d'

/-- The `"` character. -/
def quoteC : Char := '\x22'

/-- `str::find` for a string pattern: index of the first occurrence of `pat`
as a contiguous substring, `none` when there is none.  (Rust returns a byte
offset; on the decoded text both sides index the same character sequence.) -/
def findSub (pat : Str) : Str → Option Nat
  | [] => if pat.isPrefixOf [] then some 0 else none
  | c :: t => if pat.isPrefixOf (c :: t) then some 0 else (findSub pat t).map (· + 1)

/-- Association-list lookup, modelling `HashMap::get` / `serde_json::Map::get`. -/
def lookupA (k : Str) : List (Str × α) → Option α
  | [] => none
  | (k2, v) :: rest => if k2 = k then some v else lookupA k rest

/-- Association-list insert-or-replace, modelling `HashMap::insert` /
`serde_json::Map::insert` (unique keys; a later insert overwrites). -/
def mapInsert (k : Str) (v : α) : List (Str × α) → List (Str × α)
  | [] => [(k, v)]
  | (k2, v2) :: rest => if k2 = k then (k, v) :: rest else (k2, v2) :: mapInsert k v rest

/-- `serde_json::Value`.  Numbers carry their canonical decimal rendering
(`n.to_string()`), which is all the embedded code ever uses of them. -/
inductive Value where
  | null
  | bool (b : Bool)
  | num (repr : Str)
  | str (s : Str)
  | arr (elems : List Value)
  | obj (entries : List (Str × Value))
deriving Inhabited

/-- `ErrorKind` from `src/error.rs`. -/
inductive ErrorKind where
  | fileNotFound
  | parseError
  | invalidArgument
deriving DecidableEq

/-- `ErrorKind::exit_code` (`src/error.rs`). -/
def ErrorKind.exit_code : ErrorKind → Int
  | .fileNotFound => 1
  | .parseError => 2
  | .invalidArgument => 3

/-- `ErrorKind::error_type` (`src/error.rs`). -/
def ErrorKind.error_type : ErrorKind → Str
  | .fileNotFound => strL "FileNotFound"
  | .parseError => strL "ParseError"
  | .invalidArgument => strL "InvalidArgument"

/-- `SCHEMA_VERSION` (`src/error.rs`). -/
def SCHEMA_VERSION : Nat := 1

/-- The parsed save retained by a session (`struct ParsedSave`, `serve.rs`).
`gamestateBytes` is the Windows-1252-decoded text of the primary payload
(the code turns the raw bytes into text with `String::from_utf8_lossy`
before every raw-text operation). -/
structure ParsedSave where
  gamestate : List (Str × Value)
  gamestateBytes : Str
  meta : Option (List (Str × Value))

/-! ## Raw-text extractor (`serve.rs` lines 624–884)

The section-location step shared by `handle_get_duplicate_values`,
`extract_duplicate_values` and `extract_entry_text`: find `"\n" + section + "="`,
then the first `{` after it; the content starts one past that brace. -/

/-- Locate the content start of `section`: `content.find("\n"+section+"=")`,
then `find('{')` in the suffix, answering `section_start + pos + 1`. -/
def section_content_start (content sec : Str) : Option Nat :=
  match findSub ('\n' :: sec ++ ['=']) content with
  | none => none
  | some sectionStart =>
    match findSub [lbraceC] (content.drop sectionStart) with
    | none => none
    | some pos => some (sectionStart + pos + 1)

/-- The three entry-header patterns, in the priority order of the code:
`"\n\t"+key+"=\n\t{"`, `"\n\t"+key+"={"`, `"\n\t"+key+" ="`. -/
def entryPatterns (key : Str) : List Str :=
  [ '\n' :: '\t' :: key ++ ['=', '\n', '\t', lbraceC],
    '\n' :: '\t' :: key ++ ['=', lbraceC],
    '\n' :: '\t' :: key ++ [' ', '='] ]

/-- The pattern loop with `break`: try each pattern in order, keep the first
one that matches anywhere in `s`. -/
def firstPatternMatch : List Str → Str → Option Nat
  | [], _ => none
  | p :: ps, s =>
    match findSub p s with
    | some i => some i
    | none => firstPatternMatch ps s

/-- Find the entry start for `key` inside `content`, searching from the
section content offset `cs` (absolute offset in `content` on success). -/
def entry_start_from (content : Str) (cs : Nat) (key : Str) : Option Nat :=
  (firstPatternMatch (entryPatterns key) (content.drop cs)).map (cs + ·)

/-- The UTF-8 byte length of a decoded string — Rust `str::len`. -/
def utf8Len (s : Str) : Nat := (s.map Char.utf8Size).sum

/-- Rust `&s[..n]` with `n` a byte offset: `some` prefix when `n` bytes end
exactly on a character boundary within the string, `none` (a panic) when `n`
falls inside a multi-byte character or past the end. -/
def byteTake (n : Nat) : Str → Option Str
  | [] => if n = 0 then some [] else none
  | c :: rest =>
    if n = 0 then some []
    else if c.utf8Size ≤ n then (byteTake (n - c.utf8Size) rest).map (c :: ·)
    else none

/-- The brace-counting loop: starting state `brace_count = 0`,
`in_entry = false`, `entry_end = entry_content.len()` (a byte length); `{`
increments and sets `in_entry`, `}` decrements and, once `in_entry` holds and
the count returns to zero, ends the block at `i + 1` — `i` being the
character index from `chars().enumerate()`. -/
def braceEndAux : Str → Nat → Int → Bool → Nat → Nat
  | [], _, _, _, total => total
  | c :: rest, i, bc, inEntry, total =>
    if c = lbraceC then braceEndAux rest (i + 1) (bc + 1) true total
    else if c = rbraceC then
      if inEntry ∧ bc - 1 = 0 then i + 1
      else braceEndAux rest (i + 1) (bc - 1) inEntry total
    else braceEndAux rest (i + 1) bc inEntry total

/-- `entry_end` of an entry block starting at the head of `s`: the character
count `i + 1` at the balancing `}`, or the byte length when no `}` balances. -/
def braceEnd (s : Str) : Nat := braceEndAux s 0 0 false (utf8Len s)

/-- The raw entry block at absolute offset `start`:
`&entry_content[..entry_end]` — the source consumes `entry_end` (a character
count) as a byte offset, so the block is the `braceEnd`-byte slice of the
suffix: possibly truncated before the balancing brace when the suffix holds
multi-byte characters, `none` (panic) when the slice misses a character
boundary. -/
def block_at (content : Str) (start : Nat) : Option Str :=
  byteTake (braceEnd (content.drop start)) (content.drop start)

/-- The left-to-right field scan of `handle_get_duplicate_values` /
`extract_duplicate_values`: repeatedly find `pat` (which the callers
instantiate with `field + "=\""`), capture up to the next `"`, and continue
just past that quote. -/
def scanValues (pat : Str) (s : Str) : List Str :=
  match hf : findSub pat s with
  | none => []
  | some i =>
    match hq : findSub [quoteC] (s.drop (i + pat.length)) with
    | none => []
    | some j =>
      (s.drop (i + pat.length)).take j ::
        scanValues pat ((s.drop (i + pat.length)).drop (j + 1))
termination_by s.length
decreasing_by
  have key : ∀ (t : Str) (n : Nat), findSub [quoteC] t = some n → n < t.length := by
    intro t
    induction t with
    | nil => intro n h; simp [findSub, List.isPrefixOf] at h
    | cons c rest ih =>
      intro n h
      simp only [findSub] at h
      split at h
      · exact (Option.some.injEq _ _ ▸ h) ▸ (by simp)
      · rcases Option.map_eq_some'.mp h with ⟨m, hm, hn⟩
        have := ih m hm
        simp only [List.length_cons]
        omega
  have hl := key _ _ hq
  simp only [List.length_drop] at hl ⊢
  omega

/-- `handle_get_duplicate_values` (`serve.rs` lines 624–720), as the pure
result `(values, found)` of the response it writes; `none` when the block
slice panics (the function then never returns and nothing is written). -/
def handle_get_duplicate_values (content sec key field : Str) :
    Option (List Str × Bool) :=
  match section_content_start content sec with
  | none => some ([], false)
  | some cs =>
    match entry_start_from content cs key with
    | none => some ([], false)
    | some start =>
      (block_at content start).map
        (fun block => (scanValues (field ++ ['=', quoteC]) block, true))

/-- `extract_duplicate_values` (`serve.rs` lines 724–804): the cached-offset
variant used by multi-op batches.  Returns `(values, found, section offset)`,
`none` when the block slice panics. -/
def extract_duplicate_values (content sec key field : Str) (cached : Option Nat) :
    Option (List Str × Bool × Option Nat) :=
  let csOpt := match cached with
    | some start => some start
    | none => section_content_start content sec
  match csOpt with
  | none => some ([], false, none)
  | some cs =>
    match entry_start_from content cs key with
    | none => some ([], false, some cs)
    | some start =>
      (block_at content start).map
        (fun block => (scanValues (field ++ ['=', quoteC]) block, true, some cs))

/-- `extract_entry_text` (`serve.rs` lines 823–884): raw block text with
optional cached section offset; `none` when the block slice panics. -/
def extract_entry_text (content sec key : Str) (cached : Option Nat) :
    Option (Str × Bool) :=
  let csOpt := match cached with
    | some start => some start
    | none => section_content_start content sec
  match csOpt with
  | none => some ([], false)
  | some cs =>
    match entry_start_from content cs key with
    | none => some ([], false)
    | some start => (block_at content start).map (fun block => (block, true))

/-- The entry location steps shared by the raw-text operations
(`serve.rs` lines 642–674): section content start, then entry start; the
absolute offset at which the entry block begins. -/
def locateEntryStart (content sec key : Str) : Option Nat :=
  match section_content_start content sec with
  | none => none
  | some cs => entry_start_from content cs key

/-! ## Query engine (`serve.rs` lines 313–614) -/

mutual

/-- `handle_count_keys`'s inner `traverse` (`serve.rs` lines 452–469): walk a
`Value`, incrementing the counter of every Object key that is in `keySet`,
recursing into object values and array elements.  The counts map is modelled
extensionally as a function. -/
def traverseVal (keySet : List Str) (counts : Str → Nat) : Value → (Str → Nat)
  | .obj entries => traverseEntries keySet counts entries
  | .arr elems => traverseArr keySet counts elems
  | _ => counts

def traverseEntries (keySet : List Str) (counts : Str → Nat) :
    List (Str × Value) → (Str → Nat)
  | [] => counts
  | (k, v) :: rest =>
    let counts1 := if k ∈ keySet then (fun q => if q = k then counts q + 1 else counts q)
                   else counts
    traverseEntries keySet (traverseVal keySet counts1 v) rest

def traverseArr (keySet : List Str) (counts : Str → Nat) : List Value → (Str → Nat)
  | [] => counts
  | v :: rest => traverseArr keySet (traverseVal keySet counts v) rest

end

/-- `handle_count_keys` (`serve.rs` lines 445–480): counts initialised to 0 for
every requested key, then `traverse` over every section value of the gamestate. -/
def handle_count_keys (gs : List (Str × Value)) (keys : List Str) : Str → Nat :=
  gs.foldl (fun counts p => traverseVal keys counts p.2) (fun _ => 0)

mutual

/-- Specification-side count: the number of Object entries named `k` anywhere
in the subtree of a `Value` (any depth, arrays included). -/
def countOcc (k : Str) : Value → Nat
  | .obj entries => countOccEntries k entries
  | .arr elems => countOccArr k elems
  | _ => 0

def countOccEntries (k : Str) : List (Str × Value) → Nat
  | [] => 0
  | (k2, v) :: rest => (if k2 = k then 1 else 0) + countOcc k v + countOccEntries k rest

def countOccArr (k : Str) : List Value → Nat
  | [] => 0
  | v :: rest => countOcc k v + countOccArr k rest

end

/-- Total number of Object entries named `k` over every section's subtree. -/
def totalCount (k : Str) (gs : List (Str × Value)) : Nat :=
  (gs.map (fun p => countOcc k p.2)).sum

/-- `handle_contains_tokens` (`serve.rs` lines 483–501).  The Aho-Corasick
automaton of the `aho_corasick` crate reports every occurrence of every
pattern in the haystack; as a map the result is: a requested token is matched
iff it occurs as a substring of the gamestate bytes. -/
def contains_tokens_result (bytes : Str) (tokens : List Str) : Str → Bool :=
  fun t => if t ∈ tokens then (findSub t bytes).isSome else false

/-- `key_to_values` of `handle_contains_kv`: the set of requested values for a
key (`none` when the key was not requested). -/
def kvTargets (pairs : List (Str × Str)) (k : Str) : Option (List Str) :=
  let vals := (pairs.filter (fun p => p.1 = k)).map Prod.snd
  if vals = [] then none else some vals

/-- Set `matches[key] = true` (`HashMap::insert` on a boolean result map). -/
def setTrue (key : Str) (m : Str → Bool) : Str → Bool :=
  fun q => if q = key then true else m q

mutual

/-- `handle_contains_kv`'s inner `traverse` (`serve.rs` lines 525–574):
at every Object entry whose name is requested, render the scalar value
(string verbatim, bool as yes/no, number as its decimal rendering) and mark
`key=value` matched when it is a requested value; recurse everywhere. -/
def kvVisitVal (ktv : Str → Option (List Str)) (m : Str → Bool) : Value → (Str → Bool)
  | .obj entries => kvVisitEntries ktv m entries
  | .arr elems => kvVisitArr ktv m elems
  | _ => m

def kvVisitEntries (ktv : Str → Option (List Str)) (m : Str → Bool) :
    List (Str × Value) → (Str → Bool)
  | [] => m
  | (k, v) :: rest =>
    let m2 := match ktv k with
      | none => m
      | some targets =>
        let m1 := match v with
          | Value.str s => if s ∈ targets then setTrue (k ++ '=' :: s) m else m
          | Value.bool b =>
            let bs := if b then strL "yes" else strL "no"
            if bs ∈ targets then setTrue (k ++ '=' :: bs) m else m
          | _ => m
        match v with
        | Value.num ns => if ns ∈ targets then setTrue (k ++ '=' :: ns) m1 else m1
        | _ => m1
    kvVisitEntries ktv (kvVisitVal ktv m2 v) rest

def kvVisitArr (ktv : Str → Option (List Str)) (m : Str → Bool) : List Value → (Str → Bool)
  | [] => m
  | v :: rest => kvVisitArr ktv (kvVisitVal ktv m v) rest

end

/-- `handle_contains_kv` (`serve.rs` lines 506–585): all requested `key=value`
pairs start unmatched, then the tree walk over every section value. -/
def contains_kv_result (gs : List (Str × Value)) (pairs : List (Str × Str)) : Str → Bool :=
  gs.foldl (fun m p => kvVisitVal (kvTargets pairs) m p.2) (fun _ => false)

/-- `handle_get_entry` (`serve.rs` lines 370–392), as `(entry, found)`. -/
def get_entry_result (gs : List (Str × Value)) (sec key : Str) : Value × Bool :=
  match lookupA sec gs with
  | some (Value.obj m) =>
    match lookupA key m with
    | some v => (v, true)
    | none => (Value.null, false)
  | _ => (Value.null, false)

/-- The per-entry projection of `handle_get_entries` (`serve.rs` lines 407–431):
with a field list, an object entry is projected to `_key` plus the requested
fields present on it; otherwise the entry is wrapped as `{_key, _value}`. -/
def project_entry (fields : Option (List Str)) (key : Str) (v : Value) : Value :=
  match fields with
  | some fieldList =>
    match v with
    | Value.obj entryObj =>
      Value.obj (fieldList.foldl (fun acc f =>
        match lookupA f entryObj with
        | some fv => mapInsert f fv acc
        | none => acc) (mapInsert (strL "_key") (Value.str key) []))
    | _ => Value.obj (mapInsert (strL "_value") v (mapInsert (strL "_key") (Value.str key) []))
  | none => Value.obj (mapInsert (strL "_value") v (mapInsert (strL "_key") (Value.str key) []))

/-- The key loop of `handle_get_entries`: keys that are absent are silently
skipped, present keys contribute their projected entry, in request order. -/
def get_entries_list (m : List (Str × Value)) (fields : Option (List Str)) :
    List Str → List Value
  | [] => []
  | k :: rest =>
    match lookupA k m with
    | some v => project_entry fields k v :: get_entries_list m fields rest
    | none => get_entries_list m fields rest

/-- `handle_get_entries` (`serve.rs` lines 395–442), as the `entries` payload. -/
def get_entries_result (gs : List (Str × Value)) (sec : Str) (keys : List Str)
    (fields : Option (List Str)) : List Value :=
  match lookupA sec gs with
  | some (Value.obj m) => get_entries_list m fields keys
  | _ => []

/-- One country summary of `handle_get_country_summaries` (`serve.rs` 593–606):
`id` plus the requested fields present on the entry. -/
def country_summary (fields : List Str) (cid : Str) (cdata : Value) : Value :=
  let base := mapInsert (strL "id") (Value.str cid) []
  match cdata with
  | Value.obj cobj =>
    Value.obj (fields.foldl (fun acc f =>
      match lookupA f cobj with
      | some v => mapInsert f v acc
      | none => acc) base)
  | _ => Value.obj base

/-- `handle_get_country_summaries` (`serve.rs` lines 588–614). -/
def get_country_summaries_result (gs : List (Str × Value)) (fields : List Str) : List Value :=
  match lookupA (strL "country") gs with
  | some (Value.obj countryMap) => countryMap.map (fun p => country_summary fields p.1 p.2)
  | _ => []

/-- The loop body of `ParsedSave::extract_sections` (`serve.rs` lines 254–262):
the reserved name `meta` takes the secondary payload when present, any other
name takes its gamestate section when present, absent names are skipped. -/
def extract_sections_step (ps : ParsedSave) (acc : List (Str × Value)) (sec : Str) :
    List (Str × Value) :=
  if sec = strL "meta" then
    match ps.meta with
    | some m => mapInsert (strL "meta") (Value.obj m) acc
    | none => acc
  else
    match lookupA sec ps.gamestate with
    | some v => mapInsert sec v acc
    | none => acc

/-- `ParsedSave::extract_sections` (`serve.rs` lines 247–266): a result map
seeded with `schema_version`, `tool_version`, `game`, then one insert per
requested section. -/
def extract_sections (ps : ParsedSave) (tv : Str) (sections : List Str) :
    List (Str × Value) :=
  let base :=
    mapInsert (strL "game") (Value.str (strL "stellaris"))
      (mapInsert (strL "tool_version") (Value.str tv)
        (mapInsert (strL "schema_version") (Value.num (strL "1")) []))
  sections.foldl (extract_sections_step ps) base

/-! ## Streaming iterate-section (`serve.rs` lines 108–110 and 323–367) -/

/-- `default_batch_size` (`serve.rs` lines 108–110). -/
def default_batch_size : Nat := 100

/-- The messages emitted by `handle_iter_section`, in emission order. -/
inductive StreamMsg where
  | header (sec : Str)
  | entry (key : Str) (value : Value)
  | batch (entries : List (Str × Value))
  | done (sec : Str)

/-- The batched loop of `handle_iter_section` (lines 343–354): push each entry,
flush when the batch reaches `batchSize`, flush the non-empty remainder. -/
def batchLoop (batchSize : Nat) (batch : List (Str × Value)) :
    List (Str × Value) → List StreamMsg
  | [] => if batch.isEmpty then [] else [StreamMsg.batch batch]
  | e :: rest =>
    let batch2 := batch ++ [e]
    if batchSize ≤ batch2.length then StreamMsg.batch batch2 :: batchLoop batchSize [] rest
    else batchLoop batchSize batch2 rest

/-- `handle_iter_section` (`serve.rs` lines 323–367) as the emitted message
sequence: header, then per-entry messages (batch size ≤ 1) or batches,
and nothing at all when the section is absent or not an Object; then done. -/
def handle_iter_section (gs : List (Str × Value)) (sec : Str) (batchSize : Nat) :
    List StreamMsg :=
  StreamMsg.header sec ::
    (match lookupA sec gs with
     | some (Value.obj m) =>
       if batchSize ≤ 1 then m.map (fun e => StreamMsg.entry e.1 e.2)
       else batchLoop batchSize [] m
     | _ => []) ++ [StreamMsg.done sec]

/-- Proof-side chunking of a list into pieces of `b` elements (the last piece
possibly shorter); used to describe `batchLoop`'s output. -/
def chunksB (b : Nat) : List α → List (List α)
  | [] => []
  | x :: xs => (x :: xs).take b :: chunksB b (xs.drop (b - 1))
termination_by l => l.length
decreasing_by
  simp only [List.length_cons, List.length_drop]
  omega

/-! ## Multi-op batching (`serve.rs` lines 59–105 and 890–1110) -/

/-- `enum MultiOp` (`serve.rs` lines 68–105): the operations a multi-op batch
may carry (iterate-section and close are excluded). -/
inductive MultiOp where
  | extractSections (sections : List Str)
  | getEntry (sec key : Str)
  | getEntries (sec : Str) (keys : List Str) (fields : Option (List Str))
  | countKeys (keys : List Str)
  | containsTokens (tokens : List Str)
  | containsKv (pairs : List (Str × Str))
  | getCountrySummaries (fields : List Str)
  | getDuplicateValues (sec key field : Str)
  | getEntryText (sec key : Str)

/-- The per-operation result payloads (the operation-specific fields of the
success envelopes of `ResponseData`, and the `json!` objects pushed by
`handle_multi_op`). -/
inductive OpResult where
  | extract (data : Value)
  | entry (entry : Value) (found : Bool)
  | entries (entries : List Value)
  | counts (counts : Str → Nat)
  | tokenMatches (m : Str → Bool)
  | kvMatches (m : Str → Bool)
  | countries (countries : List Value)
  | dupValues (values : List Str) (found : Bool)
  | entryText (text : Str) (found : Bool)

/-- The payload each operation produces when issued standalone (the handler
functions of `serve.rs` lines 313–884, reduced to their written payload);
`none` when the standalone handler would panic in the block slice. -/
def standaloneOpResult (ps : ParsedSave) (tv : Str) : MultiOp → Option OpResult
  | .extractSections sections =>
    some (.extract (Value.obj (extract_sections ps tv sections)))
  | .getEntry sec key =>
    let r := get_entry_result ps.gamestate sec key
    some (.entry r.1 r.2)
  | .getEntries sec keys fields =>
    some (.entries (get_entries_result ps.gamestate sec keys fields))
  | .countKeys keys => some (.counts (handle_count_keys ps.gamestate keys))
  | .containsTokens tokens =>
    some (.tokenMatches (contains_tokens_result ps.gamestateBytes tokens))
  | .containsKv pairs => some (.kvMatches (contains_kv_result ps.gamestate pairs))
  | .getCountrySummaries fields =>
    some (.countries (get_country_summaries_result ps.gamestate fields))
  | .getDuplicateValues sec key field =>
    (handle_get_duplicate_values ps.gamestateBytes sec key field).map
      (fun r => .dupValues r.1 r.2)
  | .getEntryText sec key =>
    (extract_entry_text ps.gamestateBytes sec key none).map
      (fun r => .entryText r.1 r.2)

/-- The results the sub-operations would produce standalone, sequenced in
input order; `none` as soon as one of them panics. -/
def standaloneBatch (ps : ParsedSave) (tv : Str) : List MultiOp → Option (List OpResult)
  | [] => some []
  | op :: rest =>
    match standaloneOpResult ps tv op with
    | none => none
    | some r => (standaloneBatch ps tv rest).map (r :: ·)

/-- One iteration of the `for op in ops` loop of `handle_multi_op`
(`serve.rs` lines 897–1104).  The non-raw-text operations repeat the
standalone handlers' code verbatim (the source duplicates it inline);
`get_duplicate_values` consults and updates the batch-scoped section-offset
cache, `get_entry_text` passes no cached offset. -/
def multiStep (ps : ParsedSave) (tv : Str) (cache : List (Str × Nat)) (op : MultiOp) :
    Option (OpResult × List (Str × Nat)) :=
  match op with
  | .getDuplicateValues sec key field =>
    let cached := lookupA sec cache
    match extract_duplicate_values ps.gamestateBytes sec key field cached with
    | none => none
    | some r =>
      let cache2 := match r.2.2 with
        | some off => mapInsert sec off cache
        | none => cache
      some (.dupValues r.1 r.2.1, cache2)
  | .getEntryText sec key =>
    (extract_entry_text ps.gamestateBytes sec key none).map
      (fun r => (.entryText r.1 r.2, cache))
  | .extractSections sections =>
    some (.extract (Value.obj (extract_sections ps tv sections)), cache)
  | .getEntry sec key =>
    let r := get_entry_result ps.gamestate sec key
    some (.entry r.1 r.2, cache)
  | .getEntries sec keys fields =>
    some (.entries (get_entries_result ps.gamestate sec keys fields), cache)
  | .countKeys keys => some (.counts (handle_count_keys ps.gamestate keys), cache)
  | .containsTokens tokens =>
    some (.tokenMatches (contains_tokens_result ps.gamestateBytes tokens), cache)
  | .containsKv pairs => some (.kvMatches (contains_kv_result ps.gamestate pairs), cache)
  | .getCountrySummaries fields =>
    some (.countries (get_country_summaries_result ps.gamestate fields), cache)

/-- The `for op in ops` loop, threading the section-offset cache and pushing
results in order; a panic in any step aborts the whole request before the one
response is written (`none`). -/
def handleMultiOpAux (ps : ParsedSave) (tv : Str) (cache : List (Str × Nat)) :
    List MultiOp → Option (List OpResult)
  | [] => some []
  | op :: rest =>
    match multiStep ps tv cache op with
    | none => none
    | some rc => (handleMultiOpAux ps tv rc.2 rest).map (rc.1 :: ·)

/-- `handle_multi_op` (`serve.rs` lines 890–1110): results of the batch, in
input order; the cache starts empty and is discarded afterwards. -/
def handle_multi_op (ps : ParsedSave) (tv : Str) (ops : List MultiOp) :
    Option (List OpResult) :=
  handleMultiOpAux ps tv [] ops

/-! ## Session loop (`serve.rs` lines 1113–1219) -/

/-- `enum Request` (`serve.rs` lines 16–64). -/
inductive Request where
  | extractSections (sections : List Str)
  | iterSection (sec : Str) (batchSize : Nat)
  | getEntry (sec key : Str)
  | getEntries (sec : Str) (keys : List Str) (fields : Option (List Str))
  | countKeys (keys : List Str)
  | containsTokens (tokens : List Str)
  | containsKv (pairs : List (Str × Str))
  | getCountrySummaries (fields : List Str)
  | getDuplicateValues (sec key field : Str)
  | getEntryText (sec key : Str)
  | multi (ops : List MultiOp)
  | close

/-- A protocol output line: a success envelope (`ok:true` plus an operation
payload), a streaming message, the multi-op results envelope, the close
acknowledgment, or an error envelope
(`ok:false, error, message, exit_code, ...`). -/
inductive OutMsg where
  | success (r : OpResult)
  | stream (m : StreamMsg)
  | multiResults (results : List OpResult)
  | closed
  | error (error : Str) (message : Str) (exitCode : Int)

/-- The dispatch of one decoded request (`serve.rs` lines 1172–1208), as the
list of messages it writes; `none` when the handler panics in the block slice
(the raw-text and multi-op operations only), in which case nothing is written
and the process aborts. -/
def handleRequest (ps : ParsedSave) (tv : Str) : Request → Option (List OutMsg)
  | .extractSections sections =>
    some [.success (.extract (Value.obj (extract_sections ps tv sections)))]
  | .iterSection sec batchSize =>
    some ((handle_iter_section ps.gamestate sec batchSize).map .stream)
  | .getEntry sec key =>
    let r := get_entry_result ps.gamestate sec key
    some [.success (.entry r.1 r.2)]
  | .getEntries sec keys fields =>
    some [.success (.entries (get_entries_result ps.gamestate sec keys fields))]
  | .countKeys keys => some [.success (.counts (handle_count_keys ps.gamestate keys))]
  | .containsTokens tokens =>
    some [.success (.tokenMatches (contains_tokens_result ps.gamestateBytes tokens))]
  | .containsKv pairs => some [.success (.kvMatches (contains_kv_result ps.gamestate pairs))]
  | .getCountrySummaries fields =>
    some [.success (.countries (get_country_summaries_result ps.gamestate fields))]
  | .getDuplicateValues sec key field =>
    (handle_get_duplicate_values ps.gamestateBytes sec key field).map
      (fun r => [.success (.dupValues r.1 r.2)])
  | .getEntryText sec key =>
    (extract_entry_text ps.gamestateBytes sec key none).map
      (fun r => [.success (.entryText r.1 r.2)])
  | .multi ops => (handle_multi_op ps tv ops).map (fun rs => [.multiResults rs])
  | .close => some [.closed]

/-- One line read from stdin, after the `serde_json::from_str` decode step:
empty (skipped by the loop), a line that failed to decode as a request
(malformed JSON, unknown operation, missing required field — `serde` rejects
all three the same way), or a decoded request. -/
inductive LineD where
  | empty
  | malformed (detail : Str)
  | req (r : Request)

/-- The error envelope written for an undecodable request line
(`serve.rs` lines 1159–1169). -/
def invalidRequestError (detail : Str) : OutMsg :=
  .error (strL "InvalidRequest") (strL "Failed to parse request: " ++ detail)
    ErrorKind.invalidArgument.exit_code

/-- The session read loop (`serve.rs` lines 1144–1215): empty lines are
skipped, undecodable lines produce one error envelope and the loop continues,
a close request writes the acknowledgment and breaks, every other request is
dispatched and the loop continues — unless the handler panics, which aborts
the process with nothing further written.  The retained `ParsedSave` is immutable
(`let parsed`; every handler takes `&ParsedSave`), so the same `ps` threads
through the whole loop. -/
def runLoop (ps : ParsedSave) (tv : Str) : List LineD → List OutMsg
  | [] => []
  | .empty :: rest => runLoop ps tv rest
  | .malformed detail :: rest => invalidRequestError detail :: runLoop ps tv rest
  | .req .close :: _ => [.closed]
  | .req r :: rest =>
    match handleRequest ps tv r with
    | some msgs => msgs ++ runLoop ps tv rest
    | none => []

/-- The exit-code sniffing of the session load failure path
(`serve.rs` lines 1126–1137): `FileNotFound`'s code when the rendered error
message contains `"Failed to open file"` or `"No such file"`, else
`ParseError`'s code. -/
def load_error_exit_code (message : Str) : Int :=
  if (findSub (strL "Failed to open file") message).isSome
      ∨ (findSub (strL "No such file") message).isSome then
    ErrorKind.fileNotFound.exit_code
  else ErrorKind.parseError.exit_code

/-- The single envelope written on a load failure:
`write_error("ParseError", &message, exit_code)` — note the hard-coded
`"ParseError"` error field. -/
def serve_load_failure (message : Str) : List OutMsg × Int :=
  ([OutMsg.error (strL "ParseError") message (load_error_exit_code message)],
    load_error_exit_code message)

/-- `run` (`serve.rs` lines 1113–1219) with the load outcome and decoded
input lines as parameters: a load failure writes its envelope and exits the
process with the sniffed code (`some code`); a successful load enters the
request loop and returns normally (`none`). -/
def serve_run (load : Except Str ParsedSave) (tv : Str) (lines : List LineD) :
    List OutMsg × Option Int :=
  match load with
  | .error msg => ((serve_load_failure msg).1, some (serve_load_failure msg).2)
  | .ok ps => (runLoop ps tv lines, none)

/-! ## One-shot commands (`extract.rs`, `iter.rs`) -/

/-- `u32::from_str` as used by `schema_version.parse::<u32>()`: an optional
leading `+`, then one or more ASCII digits, value below `2^32`. -/
def parseU32 (s : Str) : Option Nat :=
  let digits := match s with
    | '+' :: rest => rest
    | _ => s
  if digits = [] then none
  else if digits.all (fun c => c.isDigit) then
    let v := digits.foldl (fun a c => a * 10 + (c.toNat - 48)) 0
    if v < 4294967296 then some v else none
  else none

/-- `validate_schema_version` (`extract.rs` lines 114–134, identical in
`iter.rs` lines 75–94): `none` when the version parses to `SCHEMA_VERSION`,
otherwise the `ErrorKind` it exits with. -/
def validate_schema_version (schemaVersion : Str) : Option ErrorKind :=
  match parseU32 schemaVersion with
  | some v => if v = SCHEMA_VERSION then none else some ErrorKind.invalidArgument
  | none => some ErrorKind.invalidArgument

/-- The observable steps of a one-shot invocation, in order.  `exited` is the
`exit_with_error` process exit; `openedFile` is the `File::open` of the
payload container; the steps after a successful validation are supplied by
the environment (they depend on the file system). -/
inductive OneShotStep where
  | exited (error : Str) (code : Int)
  | openedFile
  | parsedPayload
  | wroteOutput

/-- `extract::run_save` (`extract.rs` lines 11–50) as its step trace:
`validate_schema_version` runs first and exits on failure; only then is the
payload container opened and the rest of the run (`ioSteps`) performed. -/
def extract_run_save (schemaVersion : Str) (ioSteps : List OneShotStep) :
    List OneShotStep :=
  match validate_schema_version schemaVersion with
  | some k => [OneShotStep.exited k.error_type k.exit_code]
  | none => OneShotStep.openedFile :: ioSteps

/-- `iter::run_save` (`iter.rs` lines 11–72) as its step trace: version
validation, then the format check, then the payload container is opened. -/
def iter_run_save (schemaVersion fmt : Str) (ioSteps : List OneShotStep) :
    List OneShotStep :=
  match validate_schema_version schemaVersion with
  | some k => [OneShotStep.exited k.error_type k.exit_code]
  | none =>
    if fmt ≠ strL "jsonl" then
      [OneShotStep.exited ErrorKind.invalidArgument.error_type
        ErrorKind.invalidArgument.exit_code]
    else OneShotStep.openedFile :: ioSteps

/-! ## Remaining definitions used by the statements -/

/-- Whether a `Value` is an Object. -/
def Value.isObj : Value → Bool
  | .obj _ => true
  | _ => false

/-- "The block assigns the field N times with quoted values v1..vN": the shape
of an entry block as the spec describes it for `get_duplicate_values`.  A block
relates to `v :: vs` when it is some text `p`, then the literal pattern
(`field + "=\""`), then a quote-free value `v`, then the closing `"`, then a
tail block for `vs`; the pattern hypothesis pins the occurrence as the first
one, i.e. `p` hides no earlier (possibly straddling) occurrence.  A block
relates to `[]` when the pattern does not occur in it at all. -/
inductive ScanSpec (pat : Str) : Str → List Str → Prop
  | nil (s : Str) (h : findSub pat s = none) : ScanSpec pat s []
  | cons (p v rest : Str) (vs : List Str)
      (hfind : findSub pat (p ++ pat ++ v ++ quoteC :: rest) = some p.length)
      (hq : quoteC ∉ v)
      (htail : ScanSpec pat rest vs) :
      ScanSpec pat (p ++ pat ++ v ++ quoteC :: rest) (v :: vs)

/-- The multi-op section-offset cache is correct for `content`: every cached
offset is the section content start that a fresh scan would find. -/
def CacheOK (content : Str) (cache : List (Str × Nat)) : Prop :=
  ∀ s cs, lookupA s cache = some cs → section_content_start content s = some cs

/-- Concrete content exhibiting the byte/character truncation of the entry
block slice: a leader entry whose `name` holds two U+FFFD replacement
characters (the `from_utf8_lossy` image of non-ASCII Windows-1252 bytes). -/
def c1TruncContent : Str :=
  strL "\nleaders=\x7b\n\t5=\x7b\n\t\tname=\x22\uFFFD\uFFFD\x22\n\t\ttraits=\x22a\x22\n\t\ttraits=\x22b\x22\n\t\x7d\n\x7d"

/-- The balanced-brace entry block of `c1TruncContent` (the block §4.2's rule
delimits, before the code's byte slice). -/
def c1TruncBlock : Str :=
  (c1TruncContent.drop 10).take (braceEnd (c1TruncContent.drop 10))

/-- The block the code actually scans for `c1TruncContent`: the byte slice
cut four characters early, losing the closing quote of the final `traits`
value. -/
def c1SlicedBlock : Str :=
  strL "\n\t5=\x7b\n\t\tname=\x22\uFFFD\uFFFD\x22\n\t\ttraits=\x22a\x22\n\t\ttraits=\x22b"

/-- Concrete all-ASCII content with a leader entry carrying two `traits`
assignments. -/
def c1AsciiContent : Str :=
  strL "\nleaders=\x7b\n\t5=\x7b\n\t\ttraits=\x22a\x22\n\t\ttraits=\x22b\x22\n\t\x7d\n\x7d"

/-! ## Lemmas about `findSub` -/

theorem findSub_prefix {pat s : Str} {i : Nat} (h : findSub pat s = some i) :
    pat.isPrefixOf (s.drop i) = true := by
  induction s generalizing i with
  | nil =>
    simp only [findSub] at h
    split at h
    · next hpre => cases h; simpa using hpre
    · cases h
  | cons c t ih =>
    simp only [findSub] at h
    split at h
    · next hpre => cases h; simpa using hpre
    · rcases Option.map_eq_some'.mp h with ⟨j, hj, hi⟩
      subst hi
      simpa using ih hj

theorem findSub_isSome {pat s : Str} {i : Nat} (h : pat.isPrefixOf (s.drop i) = true) :
    (findSub pat s).isSome := by
  induction s generalizing i with
  | nil =>
    simp only [List.drop_nil] at h
    simp [findSub, h]
  | cons c t ih =>
    cases i with
    | zero =>
      simp only [List.drop_zero] at h
      simp [findSub, h]
    | succ i' =>
      simp only [List.drop_succ_cons] at h
      have := ih h
      simp only [findSub]
      split
      · simp
      · simpa using this

theorem findSub_drop_none {pat s : Str} {n : Nat} (h : findSub pat s = none) :
    findSub pat (s.drop n) = none := by
  cases hd : findSub pat (s.drop n) with
  | none => rfl
  | some j =>
    have hp := findSub_prefix hd
    rw [List.drop_drop] at hp
    have := findSub_isSome (s := s) (i := n + j) hp
    rw [h] at this
    cases this

theorem firstPatternMatch_none {pats : List Str} {s : Str}
    (h : ∀ p ∈ pats, findSub p s = none) : firstPatternMatch pats s = none := by
  induction pats with
  | nil => rfl
  | cons p ps ih =>
    have hp := h p (by simp)
    simp only [firstPatternMatch, hp]
    exact ih fun q hq => h q (by simp [hq])

theorem findSub_quote {v : Str} (rest : Str) (hq : quoteC ∉ v) :
    findSub [quoteC] (v ++ quoteC :: rest) = some v.length := by
  induction v with
  | nil => simp [findSub, List.isPrefixOf]
  | cons c v' ih =>
    have hc : c ≠ quoteC := fun h => hq (by simp [h])
    have hm : quoteC ∉ v' := fun h => hq (by simp [h])
    simp only [List.cons_append, findSub, List.isPrefixOf]
    have : (quoteC == c) = false := by
      simp [beq_eq_false_iff_ne]
      exact fun h => hc h.symm
    rw [this]
    simp [ih hm]

/-! ## Lemmas about `scanValues` and the C1 scan specification -/

theorem scanValues_eq_nil {pat s : Str} (h : findSub pat s = none) :
    scanValues pat s = [] := by
  rw [scanValues.eq_def]
  split
  · rfl
  · next i hi => rw [h] at hi; cases hi

theorem scanValues_eq_cons {pat s : Str} {i j : Nat}
    (h : findSub pat s = some i)
    (hj : findSub [quoteC] (s.drop (i + pat.length)) = some j) :
    scanValues pat s =
      (s.drop (i + pat.length)).take j ::
        scanValues pat ((s.drop (i + pat.length)).drop (j + 1)) := by
  conv_lhs => rw [scanValues.eq_def]
  split
  · next hn => rw [h] at hn; cases hn
  · next i' hi =>
    rw [h] at hi
    cases hi
    split
    · next hn => rw [hj] at hn; cases hn
    · next j' hj' => rw [hj] at hj'; cases hj'; rfl

theorem scanValues_eq_nil_of_no_quote {pat s : Str} {i : Nat}
    (h : findSub pat s = some i)
    (hq : findSub [quoteC] (s.drop (i + pat.length)) = none) :
    scanValues pat s = [] := by
  conv_lhs => rw [scanValues.eq_def]
  split
  · rfl
  · next i' hi =>
    rw [h] at hi
    cases hi
    split
    · rfl
    · next j hj => rw [hq] at hj; cases hj

theorem scanValues_of_spec {pat s : Str} {vs : List Str} (h : ScanSpec pat s vs) :
    scanValues pat s = vs := by
  induction h with
  | nil s h => exact scanValues_eq_nil h
  | cons p v rest vs hfind hq htail ih =>
    have hdrop1 : (p ++ pat ++ v ++ quoteC :: rest).drop (p.length + pat.length)
        = v ++ quoteC :: rest := by
      have : p ++ pat ++ v ++ quoteC :: rest = (p ++ pat) ++ (v ++ quoteC :: rest) := by
        simp [List.append_assoc]
      rw [this]
      exact List.drop_left' (by simp)
    have hquote := findSub_quote (v := v) rest hq
    have hcons := scanValues_eq_cons hfind (by rw [hdrop1]; exact hquote)
    rw [hcons, hdrop1]
    have htake : (v ++ quoteC :: rest).take v.length = v := List.take_left v _
    have hdrop2 : (v ++ quoteC :: rest).drop (v.length + 1) = rest := by
      have : v ++ quoteC :: rest = (v ++ [quoteC]) ++ rest := by simp
      rw [this]
      exact List.drop_left' (by simp)
    rw [htake, hdrop2, ih]

theorem length_le_utf8Len : ∀ s : Str, s.length ≤ utf8Len s := by
  intro s
  induction s with
  | nil => simp [utf8Len]
  | cons c rest ih =>
    simp only [List.length_cons, utf8Len, List.map_cons, List.sum_cons]
    have hc : 1 ≤ c.utf8Size := String.one_le_csize c
    simp only [utf8Len] at ih
    omega

theorem braceEndAux_le :
    ∀ (s : Str) (i : Nat) (bc : Int) (ie : Bool) (total : Nat),
      braceEndAux s i bc ie total ≤ max total (i + s.length) := by
  intro s
  induction s with
  | nil => intro i bc ie total; simp [braceEndAux]
  | cons c rest ih =>
    intro i bc ie total
    simp only [braceEndAux, List.length_cons]
    split
    · have := ih (i + 1) (bc + 1) true total
      omega
    · split
      · split
        · omega
        · have := ih (i + 1) (bc - 1) ie total
          omega
      · have := ih (i + 1) bc ie total
        omega

theorem braceEnd_le_utf8Len (s : Str) : braceEnd s ≤ utf8Len s := by
  have h := braceEndAux_le s 0 0 false (utf8Len s)
  have h2 := length_le_utf8Len s
  unfold braceEnd
  omega

theorem byteTake_of_ascii :
    ∀ (s : Str) (n : Nat), n ≤ utf8Len s →
      (s.take n).all (fun c => c.utf8Size == 1) = true →
      byteTake n s = some (s.take n) := by
  intro s
  induction s with
  | nil =>
    intro n hn _
    simp only [utf8Len, List.map_nil, List.sum_nil, Nat.le_zero] at hn
    subst hn
    rfl
  | cons c rest ih =>
    intro n hn hascii
    cases n with
    | zero => rfl
    | succ m =>
      simp only [List.take_succ_cons, List.all_cons, Bool.and_eq_true, beq_iff_eq] at hascii
      have hc : c.utf8Size = 1 := hascii.1
      simp only [utf8Len, List.map_cons, List.sum_cons, hc] at hn
      simp only [byteTake, hc, Nat.succ_ne_zero, if_false, if_pos (by omega : 1 ≤ m + 1)]
      rw [show m + 1 - 1 = m from rfl]
      rw [ih m (by simpa [utf8Len] using by omega) hascii.2]
      rfl

/-- **Counterexample to C1 as stated.**  The source computes `entry_end` as a
character count (`chars().enumerate()`, `serve.rs` lines 683–694) but slices
by bytes (`&entry_content[..entry_end]`, line 696), so on content holding
multi-byte characters (here two U+FFFD replacement characters, three UTF-8
bytes each, as `String::from_utf8_lossy` produces for non-ASCII Windows-1252
bytes) the block is cut four characters before the balancing brace: the entry
block located by the balanced-brace rule assigns `traits` twice, with values
`a` and `b` (the `ScanSpec` derivation below), yet the operation returns only
`["a"]` — the truncation drops the closing quote of the final value. -/
theorem C1_counterexample :
    (locateEntryStart c1TruncContent (strL "leaders") (strL "5") = some 10 ∧
      ScanSpec (strL "traits" ++ ['=', quoteC]) c1TruncBlock [strL "a", strL "b"]) ∧
    handle_get_duplicate_values c1TruncContent (strL "leaders") (strL "5") (strL "traits") =
      some ([strL "a"], true) := by
  constructor
  case right =>
    have hcs : section_content_start c1TruncContent (strL "leaders") = some 10 := by decide
    have hes : entry_start_from c1TruncContent 10 (strL "5") = some 10 := by decide
    have hblock : block_at c1TruncContent 10 = some c1SlicedBlock := by decide
    have hscan : scanValues (strL "traits" ++ ['=', quoteC]) c1SlicedBlock = [strL "a"] := by
      rw [scanValues_eq_cons
        (show findSub (strL "traits" ++ ['=', quoteC]) c1SlicedBlock = some 20 from by decide)
        (show findSub [quoteC]
          (c1SlicedBlock.drop (20 + (strL "traits" ++ ['=', quoteC]).length)) = some 1 from by
          decide)]
      rw [scanValues_eq_nil_of_no_quote
        (show findSub (strL "traits" ++ ['=', quoteC])
          ((c1SlicedBlock.drop (20 + (strL "traits" ++ ['=', quoteC]).length)).drop (1 + 1)) =
          some 3 from by decide)
        (show findSub [quoteC]
          (((c1SlicedBlock.drop (20 + (strL "traits" ++ ['=', quoteC]).length)).drop
            (1 + 1)).drop (3 + (strL "traits" ++ ['=', quoteC]).length)) = none from by decide)]
      decide
    unfold handle_get_duplicate_values
    simp only [hcs, hes, hblock, Option.map_some', hscan]
  refine ⟨by decide, ?_⟩
  have hb : c1TruncBlock =
      strL "\n\t5=\x7b\n\t\tname=\x22\uFFFD\uFFFD\x22\n\t\t" ++
        (strL "traits" ++ ['=', quoteC]) ++ strL "a" ++ quoteC ::
        (strL "\n\t\t" ++ (strL "traits" ++ ['=', quoteC]) ++ strL "b" ++ quoteC ::
          strL "\n\t\x7d") := by decide
  rw [hb]
  exact ScanSpec.cons (strL "\n\t5=\x7b\n\t\tname=\x22\uFFFD\uFFFD\x22\n\t\t") (strL "a")
    (strL "\n\t\t" ++ (strL "traits" ++ ['=', quoteC]) ++ strL "b" ++ quoteC ::
      strL "\n\t\x7d") [strL "b"] (by decide) (by decide)
    (ScanSpec.cons (strL "\n\t\t") (strL "b") (strL "\n\t\x7d") [] (by decide) (by decide)
      (ScanSpec.nil (strL "\n\t\x7d") (by decide)))

/-- **C1 (amended).**  For every entry block located by
`get_duplicate_values(section, key, field)` — the section header, entry
header and balanced-brace steps — **whose characters are all single-byte**
(so the byte-offset slice the code takes coincides with the balanced-brace
block), the returned value list is the left-to-right scan of that block for
literal occurrences of `field + "=\""`, capturing up to the next `"`; hence
when the block assigns the field N times with quoted values v1..vN (the
`ScanSpec` hypothesis), the operation returns exactly v1..vN in source order,
with `found = true`.  On blocks holding multi-byte characters the byte slice
may instead truncate the block (dropping trailing values, see the
counterexample) or panic. -/
theorem C1_dup_values_scan_amended (content sec key field : Str) (st : Nat) (b : Str)
    (vs : List Str)
    (hst : locateEntryStart content sec key = some st)
    (hb : b = (content.drop st).take (braceEnd (content.drop st)))
    (hascii : b.all (fun c => c.utf8Size == 1) = true)
    (hs : ScanSpec (field ++ ['=', quoteC]) b vs) :
    handle_get_duplicate_values content sec key field =
      some (scanValues (field ++ ['=', quoteC]) b, true) ∧
    handle_get_duplicate_values content sec key field = some (vs, true) := by
  have hblock : block_at content st = some b := by
    unfold block_at
    rw [hb]
    exact byteTake_of_ascii _ _ (braceEnd_le_utf8Len _) (hb ▸ hascii)
  have hmain : handle_get_duplicate_values content sec key field =
      some (scanValues (field ++ ['=', quoteC]) b, true) := by
    unfold locateEntryStart at hst
    unfold handle_get_duplicate_values
    cases hcs : section_content_start content sec with
    | none => simp only [hcs] at hst; cases hst
    | some cs =>
      simp only [hcs] at hst
      simp only [hcs, hst, hblock, Option.map_some']
  exact ⟨hmain, hmain.trans (by rw [scanValues_of_spec hs])⟩

/-- Witness for the amended C1 on a concrete all-ASCII leader entry with two
`traits` assignments. -/
theorem C1_dup_values_scan_amended_witness :
    locateEntryStart c1AsciiContent (strL "leaders") (strL "5") = some 10 ∧
    handle_get_duplicate_values c1AsciiContent (strL "leaders") (strL "5") (strL "traits") =
      some ([strL "a", strL "b"], true) :=
  ⟨by decide,
    (C1_dup_values_scan_amended c1AsciiContent (strL "leaders") (strL "5") (strL "traits") 10
      (strL "\n\t5=\x7b\n\t\t" ++ (strL "traits" ++ ['=', quoteC]) ++ strL "a" ++ quoteC ::
        (strL "\n\t\t" ++ (strL "traits" ++ ['=', quoteC]) ++ strL "b" ++ quoteC ::
          strL "\n\t\x7d"))
      [strL "a", strL "b"] (by decide) (by decide) (by decide)
      (ScanSpec.cons (strL "\n\t5=\x7b\n\t\t") (strL "a")
        (strL "\n\t\t" ++ (strL "traits" ++ ['=', quoteC]) ++ strL "b" ++ quoteC ::
          strL "\n\t\x7d") [strL "b"] (by decide) (by decide)
        (ScanSpec.cons (strL "\n\t\t") (strL "b") (strL "\n\t\x7d") [] (by decide) (by decide)
          (ScanSpec.nil (strL "\n\t\x7d") (by decide))))).2⟩

/-! ## Lemmas for `count_keys` (C2) -/

mutual

theorem traverseVal_spec (ks : List Str) (q : Str) :
    (v : Value) → (counts : Str → Nat) →
      traverseVal ks counts v q = counts q + (if q ∈ ks then countOcc q v else 0)
  | .null, counts => by simp [traverseVal, countOcc]
  | .bool b, counts => by simp [traverseVal, countOcc]
  | .num n, counts => by simp [traverseVal, countOcc]
  | .str s, counts => by simp [traverseVal, countOcc]
  | .obj entries, counts => by
    simpa [traverseVal, countOcc] using traverseEntries_spec ks q entries counts
  | .arr elems, counts => by
    simpa [traverseVal, countOcc] using traverseArr_spec ks q elems counts

theorem traverseEntries_spec (ks : List Str) (q : Str) :
    (es : List (Str × Value)) → (counts : Str → Nat) →
      traverseEntries ks counts es q = counts q + (if q ∈ ks then countOccEntries q es else 0)
  | [], counts => by simp [traverseEntries, countOccEntries]
  | (k, v) :: rest, counts => by
    have hrest := traverseEntries_spec ks q rest
    have hv := traverseVal_spec ks q v
    simp only [traverseEntries, countOccEntries]
    rw [hrest, hv]
    have hc1 : (if k ∈ ks then (fun q2 => if q2 = k then counts q2 + 1 else counts q2)
        else counts) q = counts q + (if k ∈ ks ∧ q = k then 1 else 0) := by
      by_cases hk : k ∈ ks
      · by_cases he : q = k <;> simp [hk, he]
      · simp [hk]
    rw [hc1]
    by_cases hq : q ∈ ks
    · by_cases he : q = k
      · subst he
        simp [hq] <;> omega
      · have hkq : ¬ (k = q) := fun h => he h.symm
        simp [hq, he, hkq] <;> omega
    · by_cases he : q = k
      · subst he
        simp [hq] <;> omega
      · simp [hq, he] <;> omega

theorem traverseArr_spec (ks : List Str) (q : Str) :
    (vs : List Value) → (counts : Str → Nat) →
      traverseArr ks counts vs q = counts q + (if q ∈ ks then countOccArr q vs else 0)
  | [], counts => by simp [traverseArr, countOccArr]
  | v :: rest, counts => by
    have hrest := traverseArr_spec ks q rest
    have hv := traverseVal_spec ks q v
    simp only [traverseArr, countOccArr]
    rw [hrest, hv]
    by_cases hq : q ∈ ks <;> simp [hq] <;> omega

end

theorem count_keys_foldl (ks : List Str) (q : Str) :
    ∀ (gs : List (Str × Value)) (counts : Str → Nat),
      (gs.foldl (fun c p => traverseVal ks c p.2) counts) q =
        counts q + (if q ∈ ks then totalCount q gs else 0) := by
  intro gs
  induction gs with
  | nil => intro counts; simp [totalCount]
  | cons p rest ih =>
    intro counts
    simp only [List.foldl_cons]
    rw [ih, traverseVal_spec]
    simp only [totalCount, List.map_cons, List.sum_cons]
    by_cases hq : q ∈ ks <;> simp [hq, totalCount] <;> omega

/-- **C2.** For every list of requested key names, `count_keys` maps each
requested name to the number of Object entries with that name anywhere in any
section's subtree of the gamestate — at any depth, arrays included (this is
`countOcc`, summed over all sections by `totalCount`); a name that never
occurs therefore maps to 0. -/
theorem C2_count_keys_counts_subtrees (gs : List (Str × Value)) (ks : List Str) (q : Str)
    (hq : q ∈ ks) :
    handle_count_keys gs ks q = totalCount q gs := by
  unfold handle_count_keys
  rw [count_keys_foldl]
  simp [hq]

/-- Witness for C2 on the spec's example tree `{a:{x:1}, b:{x:2, y:{x:3}}}`,
requesting key `x`: the count is 3. -/
theorem C2_count_keys_counts_subtrees_witness :
    strL "x" ∈ [strL "x"] ∧
    handle_count_keys
      [ (strL "a", Value.obj [(strL "x", Value.num (strL "1"))]),
        (strL "b", Value.obj [ (strL "x", Value.num (strL "2")),
                               (strL "y", Value.obj [(strL "x", Value.num (strL "3"))]) ]) ]
      [strL "x"] (strL "x") = 3 :=
  ⟨by decide,
    (C2_count_keys_counts_subtrees
      [ (strL "a", Value.obj [(strL "x", Value.num (strL "1"))]),
        (strL "b", Value.obj [ (strL "x", Value.num (strL "2")),
                               (strL "y", Value.obj [(strL "x", Value.num (strL "3"))]) ]) ]
      [strL "x"] (strL "x") (by decide)).trans (by decide)⟩

/-! ## Lemmas for `iter_section` (C3, C10) -/

theorem chunksB_nil {α} (b : Nat) : chunksB b ([] : List α) = [] := by rw [chunksB]

theorem chunksB_cons {α} (b : Nat) (x : α) (xs : List α) :
    chunksB b (x :: xs) = (x :: xs).take b :: chunksB b (xs.drop (b - 1)) := by rw [chunksB]

theorem chunksB_cons' {α} {b : Nat} (hb : 0 < b) {l : List α} (hl : l ≠ []) :
    chunksB b l = l.take b :: chunksB b (l.drop b) := by
  cases l with
  | nil => cases hl rfl
  | cons x xs =>
    rw [chunksB_cons]
    congr 1
    cases b with
    | zero => exact absurd hb (lt_irrefl 0)
    | succ n => simp [List.drop_succ_cons]

theorem batchLoop_eq (b : Nat) (hb : 0 < b) :
    ∀ (l acc : List (Str × Value)), acc.length < b →
      batchLoop b acc l = (chunksB b (acc ++ l)).map StreamMsg.batch := by
  intro l
  induction l with
  | nil =>
    intro acc hacc
    simp only [batchLoop, List.append_nil]
    cases acc with
    | nil => simp [chunksB_nil]
    | cons x xs =>
      have h1 : (x :: xs).take b = x :: xs := List.take_of_length_le (le_of_lt hacc)
      have h2 : xs.drop (b - 1) = [] := by
        apply List.drop_eq_nil_of_le
        simp only [List.length_cons] at hacc
        omega
      rw [chunksB_cons, h1, h2, chunksB_nil]
      simp
  | cons e rest ih =>
    intro acc hacc
    simp only [batchLoop]
    by_cases hfull : b ≤ (acc ++ [e]).length
    · have hlen : (acc ++ [e]).length = b := by
        simp only [List.length_append, List.length_cons, List.length_nil] at hfull ⊢
        omega
      rw [if_pos hfull, ih [] hb]
      simp only [List.nil_append]
      rw [show acc ++ e :: rest = (acc ++ [e]) ++ rest by simp]
      rw [chunksB_cons' hb (show (acc ++ [e]) ++ rest ≠ [] by simp)]
      rw [List.take_left' hlen, List.drop_left' hlen]
      simp
    · rw [if_neg hfull]
      rw [ih (acc ++ [e]) (by simp only [List.length_append, List.length_cons,
        List.length_nil] at hfull ⊢; omega)]
      congr 2
      simp
  
theorem chunksB_length {α} (b : Nat) (hb : 0 < b) :
    ∀ (n : Nat) (l : List α), l.length ≤ n →
      (chunksB b l).length = (l.length + b - 1) / b := by
  intro n
  induction n with
  | zero =>
    intro l hl
    have h0 : l = [] := List.eq_nil_of_length_eq_zero (Nat.le_zero.mp hl)
    subst h0
    rw [chunksB_nil]
    simp only [List.length_nil]
    exact (Nat.div_eq_of_lt (by omega)).symm
  | succ n ih =>
    intro l hl
    cases l with
    | nil =>
      rw [chunksB_nil]
      simp only [List.length_nil]
      exact (Nat.div_eq_of_lt (by omega)).symm
    | cons x xs =>
      rw [chunksB_cons]
      simp only [List.length_cons]
      rw [ih (xs.drop (b - 1)) (by
        simp only [List.length_drop, List.length_cons] at hl ⊢; omega)]
      simp only [List.length_drop]
      rcases Nat.lt_or_ge xs.length b with hlt | hge
      · have h1 : xs.length - (b - 1) = 0 := by omega
        rw [h1]
        rw [Nat.div_eq_of_lt (show 0 + b - 1 < b by omega)]
        have h3 : xs.length + 1 + b - 1 = xs.length + b := by omega
        rw [h3, Nat.add_div_right _ hb]
        rw [Nat.div_eq_of_lt hlt]
      · have h1 : xs.length - (b - 1) + b - 1 = xs.length := by omega
        rw [h1]
        have h3 : xs.length + 1 + b - 1 = xs.length + b := by omega
        rw [h3, Nat.add_div_right _ hb]

theorem chunksB_dropLast {α} (b : Nat) (hb : 0 < b) :
    ∀ (n : Nat) (l : List α), l.length ≤ n →
      ∀ c ∈ (chunksB b l).dropLast, c.length = b := by
  intro n
  induction n with
  | zero =>
    intro l hl c hc
    have h0 : l = [] := List.eq_nil_of_length_eq_zero (Nat.le_zero.mp hl)
    subst h0
    rw [chunksB_nil] at hc
    cases hc
  | succ n ih =>
    intro l hl c hc
    cases l with
    | nil => rw [chunksB_nil] at hc; cases hc
    | cons x xs =>
      rw [chunksB_cons] at hc
      cases hrest : chunksB b (xs.drop (b - 1)) with
      | nil => rw [hrest] at hc; simp at hc
      | cons c1 cs =>
        rw [hrest, List.dropLast_cons_of_ne_nil (by simp)] at hc
        rcases List.mem_cons.mp hc with h | h
        · have hne : xs.drop (b - 1) ≠ [] := by
            intro h0
            rw [h0, chunksB_nil] at hrest
            cases hrest
          have hxl : b - 1 < xs.length := by
            by_contra h0
            push_neg at h0
            exact hne (List.drop_eq_nil_of_le h0)
          subst h
          simp only [List.length_take, List.length_cons]
          omega
        · exact ih (xs.drop (b - 1)) (by
            simp only [List.length_drop, List.length_cons] at hl ⊢; omega) c
            (by rw [hrest]; exact h)

theorem chunksB_le {α} (b : Nat) :
    ∀ (n : Nat) (l : List α), l.length ≤ n → ∀ c ∈ chunksB b l, c.length ≤ b := by
  intro n
  induction n with
  | zero =>
    intro l hl c hc
    have h0 : l = [] := List.eq_nil_of_length_eq_zero (Nat.le_zero.mp hl)
    subst h0
    rw [chunksB_nil] at hc
    cases hc
  | succ n ih =>
    intro l hl c hc
    cases l with
    | nil => rw [chunksB_nil] at hc; cases hc
    | cons x xs =>
      rw [chunksB_cons] at hc
      rcases List.mem_cons.mp hc with h | h
      · subst h
        simp only [List.length_take]
        omega
      · exact ih (xs.drop (b - 1)) (by
          simp only [List.length_drop, List.length_cons] at hl ⊢; omega) c h

theorem chunksB_flatten {α} (b : Nat) (hb : 0 < b) :
    ∀ (n : Nat) (l : List α), l.length ≤ n → (chunksB b l).flatten = l := by
  intro n
  induction n with
  | zero =>
    intro l hl
    have h0 : l = [] := List.eq_nil_of_length_eq_zero (Nat.le_zero.mp hl)
    subst h0
    rw [chunksB_nil]
    rfl
  | succ n ih =>
    intro l hl
    cases l with
    | nil => rw [chunksB_nil]; rfl
    | cons x xs =>
      rw [chunksB_cons' hb (by simp)]
      simp only [List.flatten_cons]
      rw [ih ((x :: xs).drop b) (by simp only [List.length_drop, List.length_cons] at hl ⊢; omega)]
      exact List.take_append_drop b (x :: xs)

/-- **C3.** For an Object-valued section with entries `m` and batch size `B`:
the emitted sequence is exactly one header first and one done message last;
with `B ≤ 1` the body is one entry message per entry, in order; with `B > 1`
the body is `⌈|m|/B⌉` batch messages whose batches, in order, partition the
entries, every batch except possibly the last holding exactly `B` entries
(and none more than `B`); the default batch size when the request leaves the
field unspecified is 100. -/
theorem C3_iter_section_messages (gs : List (Str × Value)) (sec : Str) (B : Nat)
    (m : List (Str × Value)) (hm : lookupA sec gs = some (Value.obj m)) :
    default_batch_size = 100 ∧
    (B ≤ 1 → handle_iter_section gs sec B =
      StreamMsg.header sec :: m.map (fun e => StreamMsg.entry e.1 e.2) ++ [StreamMsg.done sec]) ∧
    (1 < B → ∃ bs : List (List (Str × Value)),
      handle_iter_section gs sec B =
        StreamMsg.header sec :: bs.map StreamMsg.batch ++ [StreamMsg.done sec] ∧
      bs.length = (m.length + B - 1) / B ∧
      (∀ c ∈ bs.dropLast, c.length = B) ∧
      (∀ c ∈ bs, c.length ≤ B) ∧
      bs.flatten = m) := by
  refine ⟨rfl, ?_, ?_⟩
  · intro hB
    unfold handle_iter_section
    simp [hm, hB]
  · intro hB
    refine ⟨chunksB B m, ?_, ?_, ?_, ?_, ?_⟩
    · unfold handle_iter_section
      simp only [hm, if_neg (show ¬ B ≤ 1 by omega)]
      rw [batchLoop_eq B (by omega) m [] (by simp; omega)]
      simp
    · exact chunksB_length B (by omega) m.length m le_rfl
    · exact chunksB_dropLast B (by omega) m.length m le_rfl
    · exact chunksB_le B m.length m le_rfl
    · exact chunksB_flatten B (by omega) m.length m le_rfl

/-- Witness for C3: a three-entry section iterated with batch size 2 gives
two batches ([2 entries, 1 entry]) between header and done. -/
theorem C3_iter_section_messages_witness :
    ∃ bs : List (List (Str × Value)),
      handle_iter_section
        [(strL "country", Value.obj
          [(strL "0", Value.null), (strL "1", Value.null), (strL "2", Value.null)])]
        (strL "country") 2 =
        StreamMsg.header (strL "country") :: bs.map StreamMsg.batch ++
          [StreamMsg.done (strL "country")] ∧
      bs.length = 2 ∧ (∀ c ∈ bs.dropLast, c.length = 2) ∧ (∀ c ∈ bs, c.length ≤ 2) ∧
      bs.flatten = [(strL "0", Value.null), (strL "1", Value.null), (strL "2", Value.null)] := by
  obtain ⟨bs, h1, h2, h3, h4, h5⟩ :=
    (C3_iter_section_messages
      [(strL "country", Value.obj
        [(strL "0", Value.null), (strL "1", Value.null), (strL "2", Value.null)])]
      (strL "country") 2
      [(strL "0", Value.null), (strL "1", Value.null), (strL "2", Value.null)]
      rfl).2.2 (by omega)
  exact ⟨bs, h1, h2, h3, h4, h5⟩

/-- **C10.** An iterate-section request for a section that is absent from the
gamestate, or whose value is not an Object, emits exactly the header followed
immediately by the done message: no entry message and no error envelope. -/
theorem C10_iter_section_absent (gs : List (Str × Value)) (sec : Str) (B : Nat)
    (h : ∀ v, lookupA sec gs = some v → v.isObj = false) :
    handle_iter_section gs sec B = [StreamMsg.header sec, StreamMsg.done sec] := by
  unfold handle_iter_section
  cases hl : lookupA sec gs with
  | none => simp [hl]
  | some v =>
    cases v with
    | obj m => exact absurd (h _ hl) (by simp [Value.isObj])
    | null => simp [hl]
    | bool b2 => simp [hl]
    | num n => simp [hl]
    | str s => simp [hl]
    | arr a => simp [hl]

/-- Witness for C10: iterating a section absent from an empty gamestate. -/
theorem C10_iter_section_absent_witness :
    handle_iter_section [] (strL "country") 100 =
      [StreamMsg.header (strL "country"), StreamMsg.done (strL "country")] :=
  C10_iter_section_absent [] (strL "country") 100
    (fun v hv => by simp [lookupA] at hv)

/-! ## Session-loop error handling (C4, C5) -/

/-- **C4.** A request line that cannot be decoded as a valid request (malformed
JSON, unknown operation, missing required field — all rejected by the one
`serde_json::from_str` decode step) makes the session emit exactly one error
envelope and continue with the remaining lines against the unchanged retained
state: the loop output is that envelope followed by exactly the output the
remaining lines produce with the same `ParsedSave`. -/
theorem C4_malformed_request_is_local (ps : ParsedSave) (tv : Str) (detail : Str)
    (rest : List LineD) :
    runLoop ps tv (LineD.malformed detail :: rest) =
      invalidRequestError detail :: runLoop ps tv rest := by
  rfl

/-- **C5.** When the section header pattern is absent from the raw bytes, or
every entry header pattern for the key is absent, `get_duplicate_values` and
`get_entry_text` both answer with a single success envelope carrying
`found = false` and an empty value list / empty text — never an error
envelope.  (These not-found paths return before the entry-block byte slice,
so no panic is possible: the handler definitely writes, hence `some`.) -/
theorem C5_raw_not_found_is_success (ps : ParsedSave) (tv : Str) (sec key field : Str)
    (h : findSub ('\n' :: sec ++ ['=']) ps.gamestateBytes = none ∨
         ∀ p ∈ entryPatterns key, findSub p ps.gamestateBytes = none) :
    handleRequest ps tv (Request.getDuplicateValues sec key field) =
      some [OutMsg.success (OpResult.dupValues [] false)] ∧
    handleRequest ps tv (Request.getEntryText sec key) =
      some [OutMsg.success (OpResult.entryText [] false)] := by
  have hdup : handle_get_duplicate_values ps.gamestateBytes sec key field = some ([], false) ∧
      extract_entry_text ps.gamestateBytes sec key none = some ([], false) := by
    rcases h with hsec | hpat
    · have hcs : section_content_start ps.gamestateBytes sec = none := by
        unfold section_content_start
        rw [hsec]
      unfold handle_get_duplicate_values extract_entry_text
      simp [hcs]
    · cases hcs : section_content_start ps.gamestateBytes sec with
      | none =>
        unfold handle_get_duplicate_values extract_entry_text
        simp [hcs]
      | some cs =>
        have hes : entry_start_from ps.gamestateBytes cs key = none := by
          unfold entry_start_from
          rw [firstPatternMatch_none fun p hp => findSub_drop_none (hpat p hp)]
          rfl
        unfold handle_get_duplicate_values extract_entry_text
        simp [hcs, hes]
  constructor
  · simp only [handleRequest, hdup.1, Option.map_some']
  · simp only [handleRequest, hdup.2, Option.map_some']

/-- Witness for C5: neither the section `country` nor any entry pattern for
key `0` occurs in the bytes `hello`. -/
theorem C5_raw_not_found_is_success_witness :
    (findSub ('\n' :: strL "country" ++ ['=']) (strL "hello") = none ∨
      ∀ p ∈ entryPatterns (strL "0"), findSub p (strL "hello") = none) ∧
    handleRequest ⟨[], strL "hello", none⟩ [] (Request.getDuplicateValues
      (strL "country") (strL "0") (strL "x")) =
      some [OutMsg.success (OpResult.dupValues [] false)] :=
  ⟨Or.inl (by decide),
    (C5_raw_not_found_is_success ⟨[], strL "hello", none⟩ [] (strL "country") (strL "0")
      (strL "x") (Or.inl (by decide))).1⟩

/-! ## Lemmas for multi-op batching (C6) -/

theorem lookupA_mapInsert {α} (q k : Str) (v : α) :
    ∀ m : List (Str × α),
      lookupA q (mapInsert k v m) = if q = k then some v else lookupA q m := by
  intro m
  induction m with
  | nil =>
    by_cases h : q = k
    · subst h; simp [mapInsert, lookupA]
    · simp [mapInsert, lookupA, h, show ¬ k = q from fun hh => h hh.symm]
  | cons p rest ih =>
    obtain ⟨k2, v2⟩ := p
    by_cases hk : k2 = k
    · subst hk
      simp only [mapInsert, if_pos rfl]
      by_cases h : q = k2
      · subst h; simp [lookupA]
      · simp [lookupA, h, show ¬ k2 = q from fun hh => h hh.symm]
    · simp only [mapInsert, if_neg hk]
      by_cases h : k2 = q
      · subst h
        simp [lookupA, show ¬ k2 = k from hk]
      · simp [lookupA, h, ih]

theorem extract_dup_fresh (content sec key field : Str) :
    extract_duplicate_values content sec key field none =
      (handle_get_duplicate_values content sec key field).map
        (fun r => (r.1, r.2, section_content_start content sec)) := by
  unfold extract_duplicate_values handle_get_duplicate_values
  cases hcs : section_content_start content sec with
  | none => simp [hcs]
  | some cs =>
    cases hes : entry_start_from content cs key with
    | none => simp [hcs, hes]
    | some st =>
      simp only [hcs, hes, Option.map_map]
      rfl

theorem extract_dup_cached (content sec key field : Str) (cs : Nat)
    (hcs : section_content_start content sec = some cs) :
    extract_duplicate_values content sec key field (some cs) =
      extract_duplicate_values content sec key field none := by
  unfold extract_duplicate_values
  simp [hcs]

theorem cacheOK_insert {content : Str} {cache : List (Str × Nat)}
    (hc : CacheOK content cache) {sec : Str} {cs : Nat}
    (hcs : section_content_start content sec = some cs) :
    CacheOK content (mapInsert sec cs cache) := by
  intro s2 cs2 h2
  rw [lookupA_mapInsert] at h2
  by_cases he : s2 = sec
  · rw [if_pos he] at h2
    cases h2
    subst he
    exact hcs
  · rw [if_neg he] at h2
    exact hc s2 cs2 h2

theorem multiAux_eq (ps : ParsedSave) (tv : Str) :
    ∀ (ops : List MultiOp) (cache : List (Str × Nat)), CacheOK ps.gamestateBytes cache →
      handleMultiOpAux ps tv cache ops = standaloneBatch ps tv ops := by
  intro ops
  induction ops with
  | nil => intro cache hc; rfl
  | cons op rest ih =>
    intro cache hc
    cases op with
    | getDuplicateValues sec key field =>
      simp only [handleMultiOpAux, multiStep, standaloneBatch, standaloneOpResult]
      have hfresh :
          extract_duplicate_values ps.gamestateBytes sec key field (lookupA sec cache) =
            (handle_get_duplicate_values ps.gamestateBytes sec key field).map
              (fun r => (r.1, r.2, section_content_start ps.gamestateBytes sec)) := by
        cases hl : lookupA sec cache with
        | some cs => rw [extract_dup_cached _ _ _ _ _ (hc sec cs hl), extract_dup_fresh]
        | none => rw [extract_dup_fresh]
      rw [hfresh]
      cases hh : handle_get_duplicate_values ps.gamestateBytes sec key field with
      | none => simp
      | some r =>
        simp only [Option.map_some']
        cases hscs : section_content_start ps.gamestateBytes sec with
        | none => simp [ih cache hc]
        | some cs2 => simp [ih (mapInsert sec cs2 cache) (cacheOK_insert hc hscs)]
    | getEntryText sec key =>
      simp only [handleMultiOpAux, multiStep, standaloneBatch, standaloneOpResult]
      cases ht : extract_entry_text ps.gamestateBytes sec key none with
      | none => simp
      | some r => simp [ih cache hc]
    | extractSections sections =>
      simp only [handleMultiOpAux, multiStep, standaloneBatch, standaloneOpResult, ih cache hc]
    | getEntry sec key =>
      simp only [handleMultiOpAux, multiStep, standaloneBatch, standaloneOpResult, ih cache hc]
    | getEntries sec keys fields =>
      simp only [handleMultiOpAux, multiStep, standaloneBatch, standaloneOpResult, ih cache hc]
    | countKeys keys =>
      simp only [handleMultiOpAux, multiStep, standaloneBatch, standaloneOpResult, ih cache hc]
    | containsTokens tokens =>
      simp only [handleMultiOpAux, multiStep, standaloneBatch, standaloneOpResult, ih cache hc]
    | containsKv pairs =>
      simp only [handleMultiOpAux, multiStep, standaloneBatch, standaloneOpResult, ih cache hc]
    | getCountrySummaries fields =>
      simp only [handleMultiOpAux, multiStep, standaloneBatch, standaloneOpResult, ih cache hc]

theorem standaloneBatch_length (ps : ParsedSave) (tv : Str) :
    ∀ (ops : List MultiOp) (rs : List OpResult),
      standaloneBatch ps tv ops = some rs → rs.length = ops.length := by
  intro ops
  induction ops with
  | nil =>
    intro rs h
    cases h
    rfl
  | cons op rest ih =>
    intro rs h
    simp only [standaloneBatch] at h
    cases hs : standaloneOpResult ps tv op with
    | none => rw [hs] at h; cases h
    | some r =>
      rw [hs] at h
      cases hb : standaloneBatch ps tv rest with
      | none => rw [hb] at h; cases h
      | some rs2 =>
        rw [hb] at h
        simp only [Option.map_some', Option.some.injEq] at h
        subst h
        simp [ih rs2 hb]

/-- **C6.** A multi-op batch of N sub-operations produces exactly N results,
in input order, and each result payload equals the payload the same operation
produces standalone against the same parsed save — the batch-scoped
section-offset cache used by `get_duplicate_values` never changes a result
(starting from the empty cache, every cached offset coincides with a fresh
section scan); a panic anywhere behaves identically on both sides
(`standaloneBatch` sequences the standalone payloads in input order). -/
theorem C6_multi_op_matches_standalone (ps : ParsedSave) (tv : Str) (ops : List MultiOp) :
    handle_multi_op ps tv ops = standaloneBatch ps tv ops ∧
    ∀ rs, handle_multi_op ps tv ops = some rs → rs.length = ops.length := by
  have h := multiAux_eq ps tv ops [] (fun s cs hx => by simp [lookupA] at hx)
  exact ⟨h, fun rs hrs => standaloneBatch_length ps tv ops rs (h.symm.trans hrs)⟩

/-- Witness for C6 on a one-operation batch against an empty save. -/
theorem C6_multi_op_matches_standalone_witness :
    handle_multi_op ⟨[], [], none⟩ [] [MultiOp.getEntry (strL "a") (strL "b")] =
      standaloneBatch ⟨[], [], none⟩ [] [MultiOp.getEntry (strL "a") (strL "b")] ∧
    ([OpResult.entry Value.null false] : List OpResult).length =
      [MultiOp.getEntry (strL "a") (strL "b")].length :=
  ⟨(C6_multi_op_matches_standalone ⟨[], [], none⟩ [] [MultiOp.getEntry (strL "a") (strL "b")]).1,
    (C6_multi_op_matches_standalone ⟨[], [], none⟩ [] [MultiOp.getEntry (strL "a") (strL "b")]).2
      [OpResult.entry Value.null false] rfl⟩

/-! ## Lemmas for `extract_sections` (C7) -/

theorem mem_keys_mapInsert {α} (k k2 : Str) (v : α) :
    ∀ m : List (Str × α),
      k ∈ (mapInsert k2 v m).map Prod.fst → k = k2 ∨ k ∈ m.map Prod.fst := by
  intro m
  induction m with
  | nil => intro h; simpa [mapInsert] using h
  | cons p rest ih =>
    obtain ⟨k3, v3⟩ := p
    by_cases hk : k3 = k2
    · subst hk
      rw [show mapInsert k3 v ((k3, v3) :: rest) = (k3, v) :: rest from by simp [mapInsert]]
      intro h
      simp only [List.map_cons, List.mem_cons] at h ⊢
      tauto
    · rw [show mapInsert k2 v ((k3, v3) :: rest) = (k3, v3) :: mapInsert k2 v rest from by
        simp [mapInsert, hk]]
      intro h
      simp only [List.map_cons, List.mem_cons] at h ⊢
      rcases h with h1 | h1
      · tauto
      · rcases ih h1 with h2 | h2 <;> tauto

theorem extract_fold_keys (ps : ParsedSave) :
    ∀ (sections : List Str) (acc : List (Str × Value)) (k : Str),
      k ∈ (sections.foldl (extract_sections_step ps) acc).map Prod.fst →
      k ∈ acc.map Prod.fst ∨ k ∈ sections := by
  intro sections
  induction sections with
  | nil => intro acc k h; exact Or.inl h
  | cons s rest ih =>
    intro acc k h
    rcases ih (extract_sections_step ps acc s) k h with h2 | h2
    · unfold extract_sections_step at h2
      by_cases hs : s = strL "meta"
      · rw [if_pos hs] at h2
        cases hm : ps.meta with
        | some m =>
          rw [hm] at h2
          rcases mem_keys_mapInsert _ _ _ _ h2 with h3 | h3
          · exact Or.inr (by rw [h3, ← hs]; exact List.mem_cons_self _ _)
          · exact Or.inl h3
        | none => rw [hm] at h2; exact Or.inl h2
      · rw [if_neg hs] at h2
        cases hg : lookupA s ps.gamestate with
        | some v =>
          rw [hg] at h2
          rcases mem_keys_mapInsert _ _ _ _ h2 with h3 | h3
          · exact Or.inr (by rw [h3]; exact List.mem_cons_self _ _)
          · exact Or.inl h3
        | none => rw [hg] at h2; exact Or.inl h2
    · exact Or.inr (List.mem_cons_of_mem _ h2)

theorem extract_fold_lookup (ps : ParsedSave) (k : Str) (v : Value)
    (hkm : k ≠ strL "meta") (hg : lookupA k ps.gamestate = some v) :
    ∀ (sections : List Str) (acc : List (Str × Value)),
      (lookupA k acc = some v ∨ k ∈ sections) →
      lookupA k (sections.foldl (extract_sections_step ps) acc) = some v := by
  intro sections
  induction sections with
  | nil =>
    intro acc h
    rcases h with h | h
    · exact h
    · exact absurd h (List.not_mem_nil k)
  | cons s rest ih =>
    intro acc h
    simp only [List.foldl_cons]
    apply ih
    unfold extract_sections_step
    by_cases hs : s = strL "meta"
    · rw [if_pos hs]
      rcases h with h | h
      · left
        cases hm : ps.meta with
        | some m =>
          rw [lookupA_mapInsert, if_neg hkm]
          exact h
        | none => exact h
      · right
        rcases List.mem_cons.mp h with h2 | h2
        · exact absurd (h2.trans hs) hkm
        · exact h2
    · rw [if_neg hs]
      rcases h with h | h
      · left
        cases hgs : lookupA s ps.gamestate with
        | some w =>
          rw [lookupA_mapInsert]
          by_cases he : k = s
          · subst he
            rw [hg] at hgs
            cases hgs
            rw [if_pos rfl]
          · rw [if_neg he]
            exact h
        | none => exact h
      · rcases List.mem_cons.mp h with h2 | h2
        · subst h2
          rw [hg]
          left
          rw [lookupA_mapInsert, if_pos rfl]
        · right
          exact h2

theorem extract_fold_meta (ps : ParsedSave) (mv : List (Str × Value))
    (hm : ps.meta = some mv) :
    ∀ (sections : List Str) (acc : List (Str × Value)),
      (lookupA (strL "meta") acc = some (Value.obj mv) ∨ strL "meta" ∈ sections) →
      lookupA (strL "meta") (sections.foldl (extract_sections_step ps) acc) =
        some (Value.obj mv) := by
  intro sections
  induction sections with
  | nil =>
    intro acc h
    rcases h with h | h
    · exact h
    · exact absurd h (List.not_mem_nil _)
  | cons s rest ih =>
    intro acc h
    simp only [List.foldl_cons]
    apply ih
    unfold extract_sections_step
    by_cases hs : s = strL "meta"
    · rw [if_pos hs, hm]
      left
      rw [lookupA_mapInsert, if_pos rfl]
    · rw [if_neg hs]
      have hstep : ∀ acc2 : List (Str × Value), lookupA (strL "meta") acc2 = some (Value.obj mv) →
          lookupA (strL "meta")
            (match lookupA s ps.gamestate with
             | some v => mapInsert s v acc2
             | none => acc2) = some (Value.obj mv) := by
        intro acc2 h2
        cases hgs : lookupA s ps.gamestate with
        | some w =>
          rw [lookupA_mapInsert, if_neg (fun hh => hs hh.symm)]
          exact h2
        | none => exact h2
      rcases h with h | h
      · exact Or.inl (hstep acc h)
      · rcases List.mem_cons.mp h with h2 | h2
        · exact absurd h2.symm hs
        · exact Or.inr h2

theorem extract_fold_none (ps : ParsedSave) (k : Str) (hkm : k ≠ strL "meta")
    (hg : lookupA k ps.gamestate = none) :
    ∀ (sections : List Str) (acc : List (Str × Value)),
      lookupA k acc = none →
      lookupA k (sections.foldl (extract_sections_step ps) acc) = none := by
  intro sections
  induction sections with
  | nil => intro acc h; exact h
  | cons s rest ih =>
    intro acc h
    simp only [List.foldl_cons]
    apply ih
    unfold extract_sections_step
    by_cases hs : s = strL "meta"
    · rw [if_pos hs]
      cases hm : ps.meta with
      | some m =>
        rw [lookupA_mapInsert, if_neg hkm]
        exact h
      | none => exact h
    · rw [if_neg hs]
      cases hgs : lookupA s ps.gamestate with
      | some w =>
        rw [lookupA_mapInsert]
        have he : ¬ k = s := fun hh => by rw [hh, hgs] at hg; cases hg
        rw [if_neg he]
        exact h
      | none => exact h

/-- **Counterexample to C7 as stated.**  The returned Object always carries
the metadata keys `schema_version`, `tool_version`, `game` (inserted before
the requested sections, `serve.rs` lines 249–252): with an empty request list
the key `schema_version` is present although it is not a requested name. -/
theorem C7_counterexample :
    strL "schema_version" ∈
      (extract_sections ⟨[], [], none⟩ [] []).map Prod.fst ∧
    strL "schema_version" ∉ ([] : List Str) := by
  constructor
  · decide
  · decide

/-- **C7 (amended).**  `extract_sections` returns an Object whose every key is
a requested name or one of the three fixed metadata keys `schema_version`,
`tool_version`, `game`; a requested name other than the reserved `meta`
that is present in the parsed save appears with its parsed value; the reserved
name `meta` appears with the secondary payload when requested and present; a
requested name absent from the parsed save (and distinct from the metadata
keys) is silently omitted, with no error. -/
theorem C7_extract_sections_amended (ps : ParsedSave) (tv : Str) (sections : List Str) :
    (∀ k, k ∈ (extract_sections ps tv sections).map Prod.fst →
      k ∈ sections ∨ k ∈ [strL "schema_version", strL "tool_version", strL "game"]) ∧
    (∀ k v, k ∈ sections → k ≠ strL "meta" → lookupA k ps.gamestate = some v →
      lookupA k (extract_sections ps tv sections) = some v) ∧
    (∀ mv, strL "meta" ∈ sections → ps.meta = some mv →
      lookupA (strL "meta") (extract_sections ps tv sections) = some (Value.obj mv)) ∧
    (∀ k, k ∉ [strL "schema_version", strL "tool_version", strL "game"] →
      k ≠ strL "meta" → lookupA k ps.gamestate = none →
      lookupA k (extract_sections ps tv sections) = none) := by
  refine ⟨?_, ?_, ?_, ?_⟩
  · intro k h
    unfold extract_sections at h
    rcases extract_fold_keys ps sections _ k h with h2 | h2
    · right
      have hbase : (mapInsert (strL "game") (Value.str (strL "stellaris"))
          (mapInsert (strL "tool_version") (Value.str tv)
            (mapInsert (strL "schema_version") (Value.num (strL "1")) []))).map Prod.fst =
          [strL "schema_version", strL "tool_version", strL "game"] := rfl
      rw [hbase] at h2
      simpa using (by simpa using h2 : k = strL "schema_version" ∨
        k = strL "tool_version" ∨ k = strL "game")
    · left; exact h2
  · intro k v hk hkm hg
    unfold extract_sections
    exact extract_fold_lookup ps k v hkm hg sections _ (Or.inr hk)
  · intro mv hk hm
    unfold extract_sections
    exact extract_fold_meta ps mv hm sections _ (Or.inr hk)
  · intro k hk hkm hg
    unfold extract_sections
    apply extract_fold_none ps k hkm hg sections
    have h1 : ¬ k = strL "game" := fun h => hk (by simp [h])
    have h2 : ¬ k = strL "tool_version" := fun h => hk (by simp [h])
    have h3 : ¬ k = strL "schema_version" := fun h => hk (by simp [h])
    rw [lookupA_mapInsert, if_neg h1, lookupA_mapInsert, if_neg h2,
      lookupA_mapInsert, if_neg h3]
    rfl

/-- Witness for the amended C7: a present requested section appears with its
parsed value. -/
theorem C7_extract_sections_amended_witness :
    lookupA (strL "country")
      (extract_sections ⟨[(strL "country", Value.num (strL "7"))], [], none⟩ []
        [strL "country"]) = some (Value.num (strL "7")) :=
  (C7_extract_sections_amended ⟨[(strL "country", Value.num (strL "7"))], [], none⟩ []
    [strL "country"]).2.1 (strL "country") (Value.num (strL "7"))
    (by decide) (by decide) rfl

/-! ## Session load failure (C8) and one-shot schema validation (C9) -/

/-- **Counterexample to C8 as stated.**  On a load failure whose message
indicates a missing container file, the process exits with code 1
(`FileNotFound`'s code), but the single emitted envelope carries the error
field `"ParseError"` — `run` calls `write_error("ParseError", ...)`
unconditionally (`serve.rs` line 1135) — so the envelope does not name the
kind the exit code belongs to. -/
theorem C8_counterexample :
    serve_run (Except.error (strL "Failed to open file: test.sav")) [] [] =
      ([OutMsg.error (strL "ParseError") (strL "Failed to open file: test.sav") 1], some 1) ∧
    strL "ParseError" ≠ strL "FileNotFound" := by
  constructor
  · rfl
  · decide

/-- **C8 (amended).**  Every session load failure emits exactly one error
envelope and exits the process; the exit code is 1 (`FileNotFound`) exactly
when the rendered failure message contains `"Failed to open file"` or
`"No such file"` and 2 (`ParseError`) otherwise — in particular a missing
named payload inside the container ("No gamestate file in archive") exits
with 2; the envelope's `exit_code` field always equals the process exit code,
but its `error` field is always `"ParseError"`, whatever the kind. -/
theorem C8_load_failure_amended (msg tv : Str) (lines : List LineD) :
    serve_run (Except.error msg) tv lines =
      ([OutMsg.error (strL "ParseError") msg (load_error_exit_code msg)],
        some (load_error_exit_code msg)) ∧
    (load_error_exit_code msg = ErrorKind.fileNotFound.exit_code ↔
      ((findSub (strL "Failed to open file") msg).isSome ∨
        (findSub (strL "No such file") msg).isSome)) ∧
    (load_error_exit_code msg = 1 ∨ load_error_exit_code msg = 2) := by
  refine ⟨rfl, ?_, ?_⟩
  · unfold load_error_exit_code
    by_cases h : (findSub (strL "Failed to open file") msg).isSome
        ∨ (findSub (strL "No such file") msg).isSome
    · simp [h, ErrorKind.exit_code]
    · simp [h, ErrorKind.exit_code]
  · unfold load_error_exit_code
    by_cases h : (findSub (strL "Failed to open file") msg).isSome
        ∨ (findSub (strL "No such file") msg).isSome
    · simp [h, ErrorKind.exit_code]
    · simp [h, ErrorKind.exit_code]

/-- Witness for the amended C8: a missing named payload message exits with 2,
with one envelope whose `exit_code` field matches. -/
theorem C8_load_failure_amended_witness :
    serve_run (Except.error (strL "No gamestate file in archive")) [] [] =
      ([OutMsg.error (strL "ParseError") (strL "No gamestate file in archive")
        (load_error_exit_code (strL "No gamestate file in archive"))],
        some (load_error_exit_code (strL "No gamestate file in archive"))) ∧
    load_error_exit_code (strL "No gamestate file in archive") = 2 :=
  ⟨(C8_load_failure_amended (strL "No gamestate file in archive") [] []).1, by decide⟩

/-- **C9.** A one-shot extraction or iteration invocation whose requested
schema version does not parse to the supported version 1 exits with the
`InvalidArgument` kind and code 3 before the payload container is opened or
anything is parsed: the step trace is the single exit step, independent of
whatever the rest of the run would have done, and contains no
`openedFile`/`parsedPayload` step. -/
theorem C9_schema_version_validated_first (sv fmt : Str)
    (io io2 : List OneShotStep) (h : parseU32 sv ≠ some SCHEMA_VERSION) :
    extract_run_save sv io = [OneShotStep.exited (strL "InvalidArgument") 3] ∧
    iter_run_save sv fmt io2 = [OneShotStep.exited (strL "InvalidArgument") 3] ∧
    OneShotStep.openedFile ∉ extract_run_save sv io ∧
    OneShotStep.openedFile ∉ iter_run_save sv fmt io2 ∧
    OneShotStep.parsedPayload ∉ extract_run_save sv io ∧
    OneShotStep.parsedPayload ∉ iter_run_save sv fmt io2 := by
  have hv : validate_schema_version sv = some ErrorKind.invalidArgument := by
    unfold validate_schema_version
    cases hp : parseU32 sv with
    | none => rfl
    | some v =>
      change (if v = SCHEMA_VERSION then none else some ErrorKind.invalidArgument) = _
      rw [if_neg]
      intro he
      exact h (by rw [hp, he])
  have h1 : extract_run_save sv io = [OneShotStep.exited (strL "InvalidArgument") 3] := by
    unfold extract_run_save
    rw [hv]
    rfl
  have h2 : iter_run_save sv fmt io2 = [OneShotStep.exited (strL "InvalidArgument") 3] := by
    unfold iter_run_save
    rw [hv]
    rfl
  refine ⟨h1, h2, ?_, ?_, ?_, ?_⟩ <;> simp [h1, h2]

/-- Witness for C9: schema version `"2"` parses to 2 ≠ 1 and is rejected
before any file step. -/
theorem C9_schema_version_validated_first_witness :
    parseU32 (strL "2") ≠ some SCHEMA_VERSION ∧
    extract_run_save (strL "2") [OneShotStep.openedFile] =
      [OneShotStep.exited (strL "InvalidArgument") 3] :=
  ⟨by decide,
    (C9_schema_version_validated_first (strL "2") (strL "jsonl")
      [OneShotStep.openedFile] [] (by decide)).1⟩
